import Mathlib

/-!
Verification of the adaptive batch scheduler of `prott5_embedder.py`
(PIPELINE_non_functionnal/Partie_3_Embedding).

The development shallowly embeds the core of that file:
  * the embedding store (a Python dict from sequence id to vector data),
  * `safe_embed` (recursive halving on GPU out-of-memory, CPU fallback for
    singletons),
  * the batch-packing loop of `embed_fasta`,
  * `save_ids_and_embeddings_tsv` (periodic TSV persistence).

The encoding model (ProtT5 on GPU) and the CPU fallback call are external
capabilities; they are parameters of the embedded functions: the GPU path is a
function returning either per-position vectors for every batch member, an
out-of-memory signal, or an unrelated error, and the CPU path is a function
returning per-position vectors or an error.  Vector components are modelled as
rationals.
-/

set_option maxRecDepth 8000

namespace ProtT5

/-- A single embedding vector (one row of `last_hidden_state`). -/
abbrev Vec := List ℚ

/-- A stored value of the embedding dict: either a mean-pooled 1-D vector
(`--per_protein` mode) or the per-position vectors truncated to the true
sequence length. -/
inductive EmbVal where
  | pooled (v : Vec)
  | perPos (vs : List Vec)
deriving DecidableEq, Repr

/-- The `emb_dict` of the source: a Python dict from sequence id to value,
modelled as an insertion-ordered association list. -/
abbrev Store := List (String × EmbVal)

/-- Python dict lookup (`emb_dict[uid]` / `uid in emb_dict`). -/
def storeGet : Store → String → Option EmbVal
  | [], _ => none
  | (k₀, v₀) :: t, k => if k₀ = k then some v₀ else storeGet t k

/-- Python dict assignment `emb_dict[uid] = v`: replace the value in place if
the key is present, otherwise append the new binding (insertion order). -/
def dictInsert (d : Store) (k : String) (v : EmbVal) : Store :=
  if (storeGet d k).isSome then
    d.map (fun p => if p.1 = k then (k, v) else p)
  else d ++ [(k, v)]

/-- One element of a work batch, as built at line 182 of the source:
`batch.append((pid, " ".join(seq), len(seq)))`. -/
structure Entry where
  uid : String
  spaced : String
  len : Nat
deriving DecidableEq, Repr

/-- Residue-code normalization of the loop body (line 181):
`seq.replace("U","X").replace("Z","X").replace("O","X")` — each of the three
non-standard codes is a single character, so the chained replaces are a
character-wise map. -/
def normalizeSeq (seq : String) : String :=
  String.mk (seq.toList.map (fun c => if c = 'U' ∨ c = 'Z' ∨ c = 'O' then 'X' else c))

/-- `" ".join(seq)`: the sequence with one space between consecutive residues. -/
def spaceOut (seq : String) : String :=
  String.intercalate " " (seq.toList.map Char.toString)

/-- Build the batch element for a FASTA entry `(pid, seq)` (lines 181-182). -/
def mkEntry (pid seq : String) : Entry :=
  ⟨pid, spaceOut (normalizeSeq seq), (normalizeSeq seq).length⟩

/-- Total residue count of a batch (`sum(l for _, _, l in batch)`, line 185). -/
def sumLens (l : List Entry) : Nat :=
  (l.map Entry.len).sum

/-- Outcome of one call of the primary (GPU) encoding path, lines 117-121:
per-position vectors for each batch member, a CUDA out-of-memory
`RuntimeError`, or any other `RuntimeError` (carrying its message). -/
inductive OracleOut where
  | ok (reps : List (List Vec))
  | oom
  | err (msg : String)

/-- Elementwise sum of a nonempty family of equal-dimension vectors. -/
def vecAdd (a b : Vec) : Vec := List.zipWith (fun x y => x + y) a b

/-- Sum of a list of vectors (used to model `tensor.mean(dim=0)`). -/
def vecSum : List Vec → Vec
  | [] => []
  | [v] => v
  | v :: w :: t => vecAdd v (vecSum (w :: t))

/-- `emb.mean(dim=0)` on a stack of `vs.length` vectors: the elementwise
arithmetic mean. -/
def meanVecs (vs : List Vec) : Vec :=
  (vecSum vs).map (fun x => x / (vs.length : ℚ))

/-- Lines 123-125 (and 142-144): truncate the raw per-position output to the
true (unpadded) length, then mean-pool it when `per_protein` is set. -/
def processMember (pp : Bool) (reps : List Vec) (len : Nat) : EmbVal :=
  let emb := reps.take len
  if pp then EmbVal.pooled (meanVecs emb) else EmbVal.perPos emb

/-- The result-writing loop of the success branch (lines 122-126): one dict
assignment per batch member, pairing members with their raw outputs. -/
def writeAll (pp : Bool) (d : Store) : List (Entry × List Vec) → Store
  | [] => d
  | (e, reps) :: rest => writeAll pp (dictInsert d e.uid (processMember pp reps e.len)) rest

deriving instance DecidableEq for Except

/-- Outcome of one `safe_embed` call: the dict after the call (the source
mutates `emb_dict` in place), the control outcome (normal return or a
propagating exception with its message), and how many times the primary (GPU)
path and the secondary (CPU fallback) path were invoked. -/
structure StepOut where
  dict : Store
  res : Except String Unit
  gpuCalls : Nat
  cpuCalls : Nat
deriving DecidableEq, Repr

/-- `safe_embed` (lines 101-148), with an explicit recursion bound.  The bound
is only a termination device: `safe_embed` below always supplies
`unit.length + 1`, which is sufficient because every recursive call is on a
strictly shorter list (see `safeEmbedAux_fuel`), so the `fuel = 0` branch is
unreachable from `safe_embed`.

Branches, mirroring the source:
  * GPU success: write one result per member (lines 122-126).
  * non-OOM `RuntimeError`: re-raised unchanged (lines 147-148).
  * OOM with more than one member: split into the first `len // 2` members
    and the rest, resolve the left half then the right half (lines 130-133);
    an exception from a half propagates.
  * OOM with exactly one member: one dedicated CPU call (lines 134-146);
    its failure propagates unchanged.
  * OOM with an empty member list cannot happen from the pipeline; the source
    would raise an `IndexError` at `ids[0]`, modelled as that error message. -/
def safeEmbedAux (gpu : List Entry → OracleOut) (cpu : Entry → Except String (List Vec))
    (pp : Bool) : Nat → List Entry → Store → StepOut
  | 0, _, d => ⟨d, Except.error "recursion fuel exhausted", 0, 0⟩
  | fuel + 1, unit, d =>
    match gpu unit with
    | OracleOut.ok reps => ⟨writeAll pp d (unit.zip reps), Except.ok (), 1, 0⟩
    | OracleOut.err m => ⟨d, Except.error m, 1, 0⟩
    | OracleOut.oom =>
      if 1 < unit.length then
        match safeEmbedAux gpu cpu pp fuel (unit.take (unit.length / 2)) d with
        | ⟨d₁, Except.error m, g₁, c₁⟩ => ⟨d₁, Except.error m, 1 + g₁, c₁⟩
        | ⟨d₁, Except.ok _, g₁, c₁⟩ =>
          match safeEmbedAux gpu cpu pp fuel (unit.drop (unit.length / 2)) d₁ with
          | ⟨d₂, r₂, g₂, c₂⟩ => ⟨d₂, r₂, 1 + g₁ + g₂, c₁ + c₂⟩
      else
        match unit with
        | [] => ⟨d, Except.error "list index out of range", 1, 0⟩
        | e :: _ =>
          match cpu e with
          | Except.ok reps₁ =>
            ⟨dictInsert d e.uid (processMember pp reps₁ e.len), Except.ok (), 1, 1⟩
          | Except.error m => ⟨d, Except.error m, 1, 1⟩

/-- `safe_embed(model, tok, ids, seqs_spaced, lens, per_protein, emb_dict)`. -/
def safe_embed (gpu : List Entry → OracleOut) (cpu : Entry → Except String (List Vec))
    (pp : Bool) (unit : List Entry) (d : Store) : StepOut :=
  safeEmbedAux gpu cpu pp (unit.length + 1) unit d

/-- Outcome of a whole `embed_fasta` run: the dict states saved by the
periodic TSV writes (in order), the final dict, the control outcome, and the
accumulated GPU / CPU call counts. -/
structure RunOut where
  snaps : List Store
  dict : Store
  res : Except String Unit
  gpuCalls : Nat
  cpuCalls : Nat
deriving DecidableEq, Repr

/-- The batch-packing / embedding loop of `embed_fasta` (lines 174-201),
one iteration per FASTA entry `(pid, seq)` in the order of the (presorted)
`entries` list.  The current entry is normalized and appended to the open
batch; the batch is flushed to `safe_embed` when any of the four conditions of
line 186 holds (`len(batch) >= max_batch`, `res_ct >= max_residues`,
`i == len(entries)`, `len(seq) > max_seq_len`); after a resolved batch the
dict is saved when `batch_idx % save_every == 0 or i == len(entries)`
(lines 199-200).  An exception from `safe_embed` aborts the run.  The
`autoShrink` parameter mirrors the source's `auto_shrink` argument, which the
function body never reads. -/
def embedLoop (gpu : List Entry → OracleOut) (cpu : Entry → Except String (List Vec))
    (pp : Bool) (maxResidues maxSeqLen maxBatch saveEvery : Nat) (autoShrink : Bool)
    (batch : List Entry) (batchIdx : Nat) (d : Store) (snaps : List Store)
    (gpuAcc cpuAcc : Nat) : List (String × String) → RunOut
  | [] => ⟨snaps, d, Except.ok (), gpuAcc, cpuAcc⟩
  | (pid, seq) :: rest =>
    let e := mkEntry pid seq
    let b := batch ++ [e]
    if maxBatch ≤ b.length ∨ maxResidues ≤ sumLens b ∨ rest = [] ∨ maxSeqLen < e.len then
      match safe_embed gpu cpu pp b d with
      | ⟨d₁, Except.error m, g₁, c₁⟩ =>
        ⟨snaps, d₁, Except.error m, gpuAcc + g₁, cpuAcc + c₁⟩
      | ⟨d₁, Except.ok _, g₁, c₁⟩ =>
        let snaps₁ := if (batchIdx + 1) % saveEvery = 0 ∨ rest = [] then snaps ++ [d₁] else snaps
        embedLoop gpu cpu pp maxResidues maxSeqLen maxBatch saveEvery autoShrink
          [] (batchIdx + 1) d₁ snaps₁ (gpuAcc + g₁) (cpuAcc + c₁) rest
    else
      embedLoop gpu cpu pp maxResidues maxSeqLen maxBatch saveEvery autoShrink
        b batchIdx d snaps gpuAcc cpuAcc rest

/-- `embed_fasta` from the sorted entry list on (lines 172-201): the loop is
started with an empty batch, batch index 0, an empty dict and no saves yet.
(Reading the FASTA, filtering by the id allow-list and sorting by decreasing
length, lines 163-171, precede the part covered by the claims; `entries` here
is the list the loop iterates over.) -/
def embed_fasta (gpu : List Entry → OracleOut) (cpu : Entry → Except String (List Vec))
    (pp : Bool) (maxResidues maxSeqLen maxBatch saveEvery : Nat) (autoShrink : Bool)
    (entries : List (String × String)) : RunOut :=
  embedLoop gpu cpu pp maxResidues maxSeqLen maxBatch saveEvery autoShrink
    [] 0 [] [] 0 0 entries

/-- The batch-forming control of the same loop in isolation (lines 174-196
with the embedding call stripped): the sequence of work units that
`embed_fasta` submits to `safe_embed`, in order. -/
def packGo (maxResidues maxSeqLen maxBatch : Nat) (batch : List Entry) :
    List (String × String) → List (List Entry)
  | [] => []
  | (pid, seq) :: rest =>
    let e := mkEntry pid seq
    let b := batch ++ [e]
    if maxBatch ≤ b.length ∨ maxResidues ≤ sumLens b ∨ rest = [] ∨ maxSeqLen < e.len then
      b :: packGo maxResidues maxSeqLen maxBatch [] rest
    else
      packGo maxResidues maxSeqLen maxBatch b rest

/-- The packing of a full entry list. -/
def packBatches (maxResidues maxSeqLen maxBatch : Nat)
    (entries : List (String × String)) : List (List Entry) :=
  packGo maxResidues maxSeqLen maxBatch [] entries

/-- The WorkUnit-closing condition stated by the spec (§4.2), written from the
spec's words for comparison with the code's condition: close the open unit
when the item count reaches `max_batch_items`, the cumulative residues reach
`max_total_residues`, the just-added sequence individually exceeds
`max_single_length`, or the input is exhausted. -/
def specClosesB (maxBatchItems maxTotalResidues maxSingleLength : Nat)
    (unitAfterAdd : List Entry) (justAdded : Entry) (inputExhausted : Bool) : Bool :=
  decide (maxBatchItems ≤ unitAfterAdd.length) ||
  decide (maxTotalResidues ≤ sumLens unitAfterAdd) ||
  decide (maxSingleLength < justAdded.len) ||
  inputExhausted

/-- `arr.reshape(-1)` on a stored value: the flat list of components written
on one TSV line. -/
def flatVal : EmbVal → Vec
  | EmbVal.pooled v => v
  | EmbVal.perPos vs => vs.flatten

/-- `" ".join(map(str, vec))`. -/
def vecLine (v : Vec) : String :=
  String.intercalate " " (v.map (fun q => toString q))

/-- `sorted(emb_dict.keys())`: the dict's keys in ascending order (Python's
stable sort, modelled by insertion sort with `≤`). -/
def sortedIds (d : Store) : List String :=
  List.insertionSort (fun a b => a ≤ b) (d.map Prod.fst)

/-- The logical lines written by one flush: for each key in sorted order, the
key together with the flattened vector data. -/
def flushLines (d : Store) : List (String × Vec) :=
  (sortedIds d).map (fun uid => (uid, flatVal ((storeGet d uid).getD (EmbVal.pooled []))))

/-- The full text written by `save_ids_and_embeddings_tsv` for a nonempty
dict: one `<id>\t<space-separated values>\n` line per key, keys ascending. -/
def serializeStore (d : Store) : String :=
  String.join ((flushLines d).map (fun p => p.1 ++ "\t" ++ vecLine p.2 ++ "\n"))

/-- `save_ids_and_embeddings_tsv(emb_dict, tsv_path)` (lines 55-62) as a
function from the dict and the destination's prior content to its content
after the call: an empty dict returns before opening the file (prior content
untouched); otherwise the file is opened with mode `"w"` (truncated) and the
serialized snapshot replaces whatever was there. -/
def flushFile (d : Store) (prior : String) : String :=
  if d = [] then prior else serializeStore d

/-- Store-extension order: every binding of `s` is present, with the same
value, in `t`. -/
def StoreSub (s t : Store) : Prop :=
  ∀ uid v, storeGet s uid = some v → storeGet t uid = some v

/-- `needle` is an initial segment of `hay`. -/
def leadsWith : List Char → List Char → Bool
  | _, [] => true
  | [], _ :: _ => false
  | a :: as, b :: bs => a = b && leadsWith as bs

/-- `needle` occurs somewhere inside `hay`. -/
def occursIn : List Char → List Char → Bool
  | [], needle => needle.isEmpty
  | a :: as, needle => leadsWith (a :: as) needle || occursIn as needle

/-- `needle` occurs inside `hay` (used to ask whether an error message names a
sequence identifier). -/
def mentions (needle hay : String) : Bool :=
  occursIn hay.toList needle.toList

/-- A position list extracted from a stored value: the per-position vectors
for per-position mode, the single pooled vector otherwise. -/
def EmbVal.positions : EmbVal → List Vec
  | EmbVal.pooled v => [v]
  | EmbVal.perPos vs => vs

/- ------------------------------------------------------------------ -/
/- Concrete inputs used by witnesses and counterexamples.              -/
/- ------------------------------------------------------------------ -/

/-- A string of `n` alanines. -/
def strA (n : Nat) : String :=
  String.mk (List.replicate n 'A')

/-- A stub CPU fallback path that always succeeds, returning one zero vector
per residue position. -/
def cpuOk (e : Entry) : Except String (List Vec) :=
  Except.ok (List.replicate e.len [(0 : ℚ)])

/-- A stub GPU oracle that signals out-of-memory for any batch of total
length above 3 and otherwise returns one zero vector per position of each
member. -/
def gpuT (u : List Entry) : OracleOut :=
  if 3 < sumLens u then OracleOut.oom
  else OracleOut.ok (u.map (fun e => List.replicate e.len [(0 : ℚ)]))

/-- A stub GPU oracle that always signals out-of-memory. -/
def gpuAllOom (_ : List Entry) : OracleOut := OracleOut.oom

/-- A stub CPU fallback path that always fails with the memory error of the
secondary device (the message carries no sequence identifier). -/
def cpuFail (_ : Entry) : Except String (List Vec) :=
  Except.error "CUDA out of memory"

/-- A stub GPU oracle that signals out-of-memory above total length 4. -/
def gpuT4 (u : List Entry) : OracleOut :=
  if 4 < sumLens u then OracleOut.oom
  else OracleOut.ok (u.map (fun e => List.replicate e.len [(0 : ℚ)]))

/-- A stub GPU oracle that always succeeds. -/
def gpuOkStub (u : List Entry) : OracleOut :=
  OracleOut.ok (u.map (fun e => List.replicate e.len [(0 : ℚ)]))

/-- A three-member work unit of total length 5. -/
def unitEx : List Entry :=
  [⟨"a", "L L", 2⟩, ⟨"b", "M M", 2⟩, ⟨"c", "N", 1⟩]

/-- The spec's packing scenario: five sequences of lengths 50, 40, 10, 10, 5
(already in decreasing length order). -/
def exPack : List (String × String) :=
  [("a", strA 50), ("b", strA 40), ("c", strA 10), ("d", strA 10), ("e", strA 5)]

/-- Two length-3 sequences for the auto-recovery-flag run. -/
def exC3 : List (String × String) := [("a", "AAA"), ("b", "BBB")]

/-- Two short sequences, embedded as two batches so that two saves happen. -/
def exPairs9 : List (String × String) := [("a", "AA"), ("b", "BB")]

/-- A two-entry store whose keys are out of order. -/
def dEx : Store := [("b", EmbVal.pooled [(1 : ℚ)]), ("a", EmbVal.pooled [(2 : ℚ)])]

/- ------------------------------------------------------------------ -/
/- Store lemmas.                                                       -/
/- ------------------------------------------------------------------ -/

theorem storeGet_append (d₁ d₂ : Store) (k : String) :
    storeGet (d₁ ++ d₂) k =
      match storeGet d₁ k with
      | some v => some v
      | none => storeGet d₂ k := by
  induction d₁ with
  | nil => simp [storeGet]
  | cons p t ih =>
    obtain ⟨k₀, v₀⟩ := p
    by_cases h : k₀ = k
    · simp [storeGet, h]
    · simp [storeGet, h, ih]

theorem storeGet_replace (d : Store) (k : String) (v : EmbVal) :
    storeGet (d.map (fun p => if p.1 = k then (k, v) else p)) k =
      (storeGet d k).map (fun _ => v) := by
  induction d with
  | nil => simp [storeGet]
  | cons p t ih =>
    obtain ⟨k₀, v₀⟩ := p
    by_cases h : k₀ = k
    · subst h
      show storeGet ((if k₀ = k₀ then (k₀, v) else (k₀, v₀)) :: _) k₀ = _
      rw [if_pos rfl]
      simp [storeGet]
    · show storeGet ((if k₀ = k then (k, v) else (k₀, v₀)) :: _) k = _
      rw [if_neg h]
      simp [storeGet, h, ih]

theorem storeGet_replace_ne (d : Store) (k k₁ : String) (v : EmbVal) (h : k₁ ≠ k) :
    storeGet (d.map (fun p => if p.1 = k then (k, v) else p)) k₁ = storeGet d k₁ := by
  induction d with
  | nil => rfl
  | cons p t ih =>
    obtain ⟨k₀, v₀⟩ := p
    by_cases h₀ : k₀ = k
    · subst h₀
      show storeGet ((if k₀ = k₀ then (k₀, v) else (k₀, v₀)) :: _) k₁ = _
      rw [if_pos rfl]
      simp only [storeGet]
      rw [if_neg (fun hh => h hh.symm), if_neg (fun hh => h hh.symm), ih]
    · show storeGet ((if k₀ = k then (k, v) else (k₀, v₀)) :: _) k₁ = _
      rw [if_neg h₀]
      simp only [storeGet]
      rw [ih]

theorem storeGet_dictInsert_self (d : Store) (k : String) (v : EmbVal) :
    storeGet (dictInsert d k v) k = some v := by
  unfold dictInsert
  by_cases h : (storeGet d k).isSome
  · rw [if_pos h, storeGet_replace]
    obtain ⟨w, hw⟩ := Option.isSome_iff_exists.mp h
    simp [hw]
  · rw [if_neg h, storeGet_append]
    have hn : storeGet d k = none := Option.not_isSome_iff_eq_none.mp h
    simp [hn, storeGet]

theorem storeGet_dictInsert_ne (d : Store) (k k₁ : String) (v : EmbVal) (h : k₁ ≠ k) :
    storeGet (dictInsert d k v) k₁ = storeGet d k₁ := by
  unfold dictInsert
  by_cases hs : (storeGet d k).isSome
  · rw [if_pos hs]
    exact storeGet_replace_ne d k k₁ v h
  · rw [if_neg hs, storeGet_append]
    cases hg : storeGet d k₁ with
    | some w => simp
    | none => simp [storeGet, Ne.symm h]

theorem mapFst_dictInsert_fresh (d : Store) (k : String) (v : EmbVal)
    (h : storeGet d k = none) :
    (dictInsert d k v).map Prod.fst = d.map Prod.fst ++ [k] := by
  unfold dictInsert
  rw [if_neg (by simp [h]), List.map_append]
  rfl

theorem storeGet_eq_none (d : Store) (k : String) :
    storeGet d k = none ↔ k ∉ d.map Prod.fst := by
  induction d with
  | nil => simp [storeGet]
  | cons p t ih =>
    obtain ⟨k₀, v₀⟩ := p
    by_cases h : k₀ = k
    · simp [storeGet, h]
    · simp [storeGet, h, ih, Ne.symm h]

/- ------------------------------------------------------------------ -/
/- writeAll lemmas.                                                    -/
/- ------------------------------------------------------------------ -/

theorem writeAll_storeGet_notmem (pp : Bool) (pairs : List (Entry × List Vec)) :
    ∀ (d : Store) (k : String), k ∉ pairs.map (fun p => p.1.uid) →
      storeGet (writeAll pp d pairs) k = storeGet d k := by
  induction pairs with
  | nil => intro d k _; rfl
  | cons p rest ih =>
    intro d k hk
    obtain ⟨e, reps⟩ := p
    simp only [List.map_cons, List.mem_cons] at hk
    push_neg at hk
    rw [writeAll, ih _ _ hk.2]
    exact storeGet_dictInsert_ne d e.uid k _ hk.1

theorem writeAll_mapFst (pp : Bool) (pairs : List (Entry × List Vec)) :
    ∀ (d : Store), (pairs.map (fun p => p.1.uid)).Nodup →
      (∀ p ∈ pairs, storeGet d p.1.uid = none) →
      (writeAll pp d pairs).map Prod.fst
        = d.map Prod.fst ++ pairs.map (fun p => p.1.uid) := by
  induction pairs with
  | nil => intro d _ _; simp [writeAll]
  | cons p rest ih =>
    intro d hnd hfresh
    obtain ⟨e, reps⟩ := p
    simp only [List.map_cons, List.nodup_cons] at hnd
    have hfr : storeGet d e.uid = none := hfresh (e, reps) (List.mem_cons_self _ _)
    have hfresh₂ : ∀ q ∈ rest,
        storeGet (dictInsert d e.uid (processMember pp reps e.len)) q.1.uid = none := by
      intro q hq
      rw [storeGet_dictInsert_ne]
      · exact hfresh q (List.mem_cons_of_mem _ hq)
      · intro hqe
        exact hnd.1 (hqe ▸ List.mem_map.mpr ⟨q, hq, rfl⟩)
    rw [writeAll, ih _ hnd.2 hfresh₂, mapFst_dictInsert_fresh _ _ _ hfr]
    simp

/- ------------------------------------------------------------------ -/
/- safe_embed: unfolding lemmas.                                       -/
/- ------------------------------------------------------------------ -/

theorem safeEmbedAux_fuel (gpu : List Entry → OracleOut)
    (cpu : Entry → Except String (List Vec)) (pp : Bool) (n : Nat) :
    ∀ (unit : List Entry) (f₁ f₂ : Nat) (d : Store), unit.length = n → n < f₁ → n < f₂ →
      safeEmbedAux gpu cpu pp f₁ unit d = safeEmbedAux gpu cpu pp f₂ unit d := by
  induction n using Nat.strong_induction_on with
  | _ n ih =>
    intro unit f₁ f₂ d hlen h₁ h₂
    match f₁, f₂ with
    | g₁ + 1, g₂ + 1 =>
      simp only [safeEmbedAux]
      cases hg : gpu unit with
      | ok reps => rfl
      | err m => rfl
      | oom =>
        by_cases hlt : 1 < unit.length
        · rw [if_pos hlt, if_pos hlt]
          have hmid : (unit.take (unit.length / 2)).length = unit.length / 2 := by
            rw [List.length_take]
            omega
          have e₁ : safeEmbedAux gpu cpu pp g₁ (unit.take (unit.length / 2)) d
              = safeEmbedAux gpu cpu pp g₂ (unit.take (unit.length / 2)) d :=
            ih (unit.length / 2) (by omega) _ g₁ g₂ d hmid (by omega) (by omega)
          have e₂ : ∀ d₀, safeEmbedAux gpu cpu pp g₁ (unit.drop (unit.length / 2)) d₀
              = safeEmbedAux gpu cpu pp g₂ (unit.drop (unit.length / 2)) d₀ := fun d₀ =>
            ih (unit.length - unit.length / 2) (by omega) _ g₁ g₂ d₀
              (List.length_drop _ _) (by omega) (by omega)
          rw [e₁]
          cases hr : safeEmbedAux gpu cpu pp g₂ (unit.take (unit.length / 2)) d with
          | mk d₁ r₁ gc₁ cc₁ =>
            cases r₁ with
            | error m => rfl
            | ok u =>
              dsimp only
              rw [e₂ d₁]
        · rw [if_neg hlt, if_neg hlt]

theorem safe_embed_gpu_ok (gpu : List Entry → OracleOut)
    (cpu : Entry → Except String (List Vec)) (pp : Bool) (unit : List Entry) (d : Store)
    (reps : List (List Vec)) (hg : gpu unit = OracleOut.ok reps) :
    safe_embed gpu cpu pp unit d = ⟨writeAll pp d (unit.zip reps), Except.ok (), 1, 0⟩ := by
  simp [safe_embed, safeEmbedAux, hg]

theorem safe_embed_gpu_err (gpu : List Entry → OracleOut)
    (cpu : Entry → Except String (List Vec)) (pp : Bool) (unit : List Entry) (d : Store)
    (m : String) (hg : gpu unit = OracleOut.err m) :
    safe_embed gpu cpu pp unit d = ⟨d, Except.error m, 1, 0⟩ := by
  simp [safe_embed, safeEmbedAux, hg]

theorem safe_embed_oom_nil (gpu : List Entry → OracleOut)
    (cpu : Entry → Except String (List Vec)) (pp : Bool) (d : Store)
    (hg : gpu [] = OracleOut.oom) :
    safe_embed gpu cpu pp [] d = ⟨d, Except.error "list index out of range", 1, 0⟩ := by
  simp [safe_embed, safeEmbedAux, hg]

theorem safe_embed_oom_single_ok (gpu : List Entry → OracleOut)
    (cpu : Entry → Except String (List Vec)) (pp : Bool) (e : Entry) (d : Store)
    (reps₁ : List Vec) (hg : gpu [e] = OracleOut.oom) (hc : cpu e = Except.ok reps₁) :
    safe_embed gpu cpu pp [e] d =
      ⟨dictInsert d e.uid (processMember pp reps₁ e.len), Except.ok (), 1, 1⟩ := by
  simp [safe_embed, safeEmbedAux, hg, hc]

theorem safe_embed_oom_single_err (gpu : List Entry → OracleOut)
    (cpu : Entry → Except String (List Vec)) (pp : Bool) (e : Entry) (d : Store)
    (m : String) (hg : gpu [e] = OracleOut.oom) (hc : cpu e = Except.error m) :
    safe_embed gpu cpu pp [e] d = ⟨d, Except.error m, 1, 1⟩ := by
  simp [safe_embed, safeEmbedAux, hg, hc]

theorem safe_embed_oom_split (gpu : List Entry → OracleOut)
    (cpu : Entry → Except String (List Vec)) (pp : Bool) (unit : List Entry) (d : Store)
    (hg : gpu unit = OracleOut.oom) (hlt : 1 < unit.length) :
    safe_embed gpu cpu pp unit d =
      match safe_embed gpu cpu pp (unit.take (unit.length / 2)) d with
      | ⟨d₁, Except.error m, g₁, c₁⟩ => ⟨d₁, Except.error m, 1 + g₁, c₁⟩
      | ⟨d₁, Except.ok _, g₁, c₁⟩ =>
        match safe_embed gpu cpu pp (unit.drop (unit.length / 2)) d₁ with
        | ⟨d₂, r₂, g₂, c₂⟩ => ⟨d₂, r₂, 1 + g₁ + g₂, c₁ + c₂⟩ := by
  have hmid : (unit.take (unit.length / 2)).length = unit.length / 2 := by
    rw [List.length_take]
    omega
  have e₁ : safeEmbedAux gpu cpu pp unit.length (unit.take (unit.length / 2)) d
      = safe_embed gpu cpu pp (unit.take (unit.length / 2)) d :=
    safeEmbedAux_fuel gpu cpu pp (unit.take (unit.length / 2)).length _ _ _ d rfl
      (by rw [hmid]; omega) (by omega)
  have e₂ : ∀ d₀, safeEmbedAux gpu cpu pp unit.length (unit.drop (unit.length / 2)) d₀
      = safe_embed gpu cpu pp (unit.drop (unit.length / 2)) d₀ := fun d₀ =>
    safeEmbedAux_fuel gpu cpu pp (unit.drop (unit.length / 2)).length _ _ _ d₀ rfl
      (by rw [List.length_drop]; omega) (by omega)
  show safeEmbedAux gpu cpu pp (unit.length + 1) unit d = _
  simp only [safeEmbedAux, hg, if_pos hlt]
  rw [e₁]
  cases hr : safe_embed gpu cpu pp (unit.take (unit.length / 2)) d with
  | mk d₁ r₁ gc₁ cc₁ =>
    cases r₁ with
    | error m => rfl
    | ok u =>
      dsimp only
      rw [e₂ d₁]

/- ------------------------------------------------------------------ -/
/- safe_embed: structural properties.                                  -/
/- ------------------------------------------------------------------ -/

theorem safe_embed_storeGet_notmem (gpu : List Entry → OracleOut)
    (cpu : Entry → Except String (List Vec)) (pp : Bool) (n : Nat) :
    ∀ (unit : List Entry) (d : Store) (k : String), unit.length = n →
      k ∉ unit.map Entry.uid →
      storeGet (safe_embed gpu cpu pp unit d).dict k = storeGet d k := by
  induction n using Nat.strong_induction_on with
  | _ n ih =>
    intro unit d k hlen hk
    cases hg : gpu unit with
    | ok reps =>
      rw [safe_embed_gpu_ok gpu cpu pp unit d reps hg]
      refine writeAll_storeGet_notmem pp _ d k ?_
      intro hmem
      obtain ⟨p, hp, hpe⟩ := List.mem_map.mp hmem
      exact hk (List.mem_map.mpr ⟨p.1, (List.of_mem_zip hp).1, hpe⟩)
    | err m => rw [safe_embed_gpu_err gpu cpu pp unit d m hg]
    | oom =>
      by_cases hlt : 1 < unit.length
      · rw [safe_embed_oom_split gpu cpu pp unit d hg hlt]
        have hktake : k ∉ (unit.take (unit.length / 2)).map Entry.uid := by
          intro hmem
          obtain ⟨e, he, hee⟩ := List.mem_map.mp hmem
          exact hk (List.mem_map.mpr ⟨e, List.take_subset _ _ he, hee⟩)
        have hkdrop : k ∉ (unit.drop (unit.length / 2)).map Entry.uid := by
          intro hmem
          obtain ⟨e, he, hee⟩ := List.mem_map.mp hmem
          exact hk (List.mem_map.mpr ⟨e, List.drop_subset _ _ he, hee⟩)
        have hmid : (unit.take (unit.length / 2)).length = unit.length / 2 := by
          rw [List.length_take]; omega
        cases h₁ : safe_embed gpu cpu pp (unit.take (unit.length / 2)) d with
        | mk d₁ r₁ g₁ c₁ =>
          have hd₁ : storeGet d₁ k = storeGet d k := by
            have := ih (unit.take (unit.length / 2)).length (by rw [hmid]; omega)
              (unit.take (unit.length / 2)) d k rfl hktake
            rw [h₁] at this
            exact this
          cases r₁ with
          | error m => exact hd₁
          | ok u =>
            dsimp only
            have hd₂ : storeGet (safe_embed gpu cpu pp (unit.drop (unit.length / 2)) d₁).dict k
                = storeGet d₁ k :=
              ih (unit.drop (unit.length / 2)).length (by rw [List.length_drop]; omega)
                (unit.drop (unit.length / 2)) d₁ k rfl hkdrop
            rw [hd₂, hd₁]
      · rcases unit with _ | ⟨e, _ | ⟨e₂, t⟩⟩
        · rw [safe_embed_oom_nil gpu cpu pp d hg]
        · have hke : k ≠ e.uid := by simpa using hk
          cases hc : cpu e with
          | ok reps₁ =>
            rw [safe_embed_oom_single_ok gpu cpu pp e d reps₁ hg hc]
            exact storeGet_dictInsert_ne d e.uid k _ hke
          | error m =>
            rw [safe_embed_oom_single_err gpu cpu pp e d m hg hc]
        · exfalso
          simp only [List.length_cons] at hlt
          omega

theorem safe_embed_keys (gpu : List Entry → OracleOut)
    (cpu : Entry → Except String (List Vec)) (pp : Bool) (n : Nat)
    (hwf : ∀ u reps, gpu u = OracleOut.ok reps → reps.length = u.length) :
    ∀ (unit : List Entry) (d : Store), unit.length = n →
      (unit.map Entry.uid).Nodup →
      (∀ e ∈ unit, storeGet d e.uid = none) →
      (safe_embed gpu cpu pp unit d).res = Except.ok () →
      (safe_embed gpu cpu pp unit d).dict.map Prod.fst
        = d.map Prod.fst ++ unit.map Entry.uid := by
  induction n using Nat.strong_induction_on with
  | _ n ih =>
    intro unit d hlen hnd hfresh hok
    cases hg : gpu unit with
    | ok reps =>
      rw [safe_embed_gpu_ok gpu cpu pp unit d reps hg]
      have hfst : (unit.zip reps).map Prod.fst = unit :=
        List.map_fst_zip _ _ (le_of_eq (hwf _ _ hg).symm)
      have huid : (unit.zip reps).map (fun p => p.1.uid) = unit.map Entry.uid := by
        conv_rhs => rw [← hfst]
        rw [List.map_map]
        rfl
      rw [writeAll_mapFst pp _ d (by rw [huid]; exact hnd)
        (fun p hp => hfresh p.1 ((List.of_mem_zip hp).1)), huid]
    | err m =>
      rw [safe_embed_gpu_err gpu cpu pp unit d m hg] at hok
      exact absurd hok (by simp)
    | oom =>
      by_cases hlt : 1 < unit.length
      · have hmid : (unit.take (unit.length / 2)).length = unit.length / 2 := by
          rw [List.length_take]; omega
        have hndt : ((unit.take (unit.length / 2)).map Entry.uid).Nodup := by
          rw [List.map_take]
          exact hnd.sublist (List.take_sublist _ _)
        have hndd : ((unit.drop (unit.length / 2)).map Entry.uid).Nodup := by
          rw [List.map_drop]
          exact hnd.sublist (List.drop_sublist _ _)
        have hnda : ((unit.take (unit.length / 2)).map Entry.uid
            ++ (unit.drop (unit.length / 2)).map Entry.uid).Nodup := by
          rw [← List.map_append, List.take_append_drop]
          exact hnd
        have hdisj : ∀ e ∈ unit.drop (unit.length / 2),
            e.uid ∉ (unit.take (unit.length / 2)).map Entry.uid := by
          intro e he hmem
          exact (List.disjoint_of_nodup_append hnda) hmem (List.mem_map.mpr ⟨e, he, rfl⟩)
        rw [safe_embed_oom_split gpu cpu pp unit d hg hlt] at hok ⊢
        cases h₁ : safe_embed gpu cpu pp (unit.take (unit.length / 2)) d with
        | mk d₁ r₁ g₁ c₁ =>
          rw [h₁] at hok
          cases r₁ with
          | error m =>
            dsimp only at hok
            exact absurd hok (by simp)
          | ok u =>
            cases u
            dsimp only at hok ⊢
            have hkeys₁ : d₁.map Prod.fst
                = d.map Prod.fst ++ (unit.take (unit.length / 2)).map Entry.uid := by
              have := ih (unit.take (unit.length / 2)).length (by rw [hmid]; omega)
                (unit.take (unit.length / 2)) d rfl hndt
                (fun e he => hfresh e (List.take_subset _ _ he)) (by rw [h₁])
              rw [h₁] at this
              exact this
            have hfresh₂ : ∀ e ∈ unit.drop (unit.length / 2), storeGet d₁ e.uid = none := by
              intro e he
              have hnm : e.uid ∉ (unit.take (unit.length / 2)).map Entry.uid := hdisj e he
              have := safe_embed_storeGet_notmem gpu cpu pp
                (unit.take (unit.length / 2)).length (unit.take (unit.length / 2)) d e.uid
                rfl hnm
              rw [h₁] at this
              rw [this]
              exact hfresh e (List.drop_subset _ _ he)
            have hkeys₂ : (safe_embed gpu cpu pp (unit.drop (unit.length / 2)) d₁).dict.map
                Prod.fst = d₁.map Prod.fst ++ (unit.drop (unit.length / 2)).map Entry.uid :=
              ih (unit.drop (unit.length / 2)).length (by rw [List.length_drop]; omega)
                (unit.drop (unit.length / 2)) d₁ rfl hndd hfresh₂ hok
            rw [hkeys₂, hkeys₁, List.append_assoc, ← List.map_append,
              List.take_append_drop]
      · rcases unit with _ | ⟨e, _ | ⟨e₂, t⟩⟩
        · rw [safe_embed_oom_nil gpu cpu pp d hg] at hok
          exact absurd hok (by simp)
        · cases hc : cpu e with
          | ok reps₁ =>
            rw [safe_embed_oom_single_ok gpu cpu pp e d reps₁ hg hc]
            rw [mapFst_dictInsert_fresh d e.uid _ (hfresh e (by simp))]
            simp
          | error m =>
            rw [safe_embed_oom_single_err gpu cpu pp e d m hg hc] at hok
            exact absurd hok (by simp)
        · exfalso
          simp only [List.length_cons] at hlt
          omega

theorem safe_embed_error_src (gpu : List Entry → OracleOut)
    (cpu : Entry → Except String (List Vec)) (pp : Bool) (n : Nat)
    (hnoerr : ∀ u m, gpu u ≠ OracleOut.err m) :
    ∀ (unit : List Entry) (d : Store) (m : String), unit.length = n → unit ≠ [] →
      (safe_embed gpu cpu pp unit d).res = Except.error m →
      ∃ e ∈ unit, cpu e = Except.error m := by
  induction n using Nat.strong_induction_on with
  | _ n ih =>
    intro unit d m hlen hne herr
    cases hg : gpu unit with
    | ok reps =>
      rw [safe_embed_gpu_ok gpu cpu pp unit d reps hg] at herr
      exact absurd herr (by simp)
    | err m₁ => exact absurd hg (hnoerr _ _)
    | oom =>
      by_cases hlt : 1 < unit.length
      · have hmid : (unit.take (unit.length / 2)).length = unit.length / 2 := by
          rw [List.length_take]; omega
        rw [safe_embed_oom_split gpu cpu pp unit d hg hlt] at herr
        cases h₁ : safe_embed gpu cpu pp (unit.take (unit.length / 2)) d with
        | mk d₁ r₁ g₁ c₁ =>
          rw [h₁] at herr
          cases r₁ with
          | error m₁ =>
            dsimp only at herr
            cases herr
            have htne : unit.take (unit.length / 2) ≠ [] := by
              intro hnil
              rw [hnil] at hmid
              simp at hmid
              omega
            obtain ⟨e, he, hc⟩ := ih (unit.take (unit.length / 2)).length
              (by rw [hmid]; omega) (unit.take (unit.length / 2)) d m rfl htne
              (by rw [h₁])
            exact ⟨e, List.take_subset _ _ he, hc⟩
          | ok u =>
            dsimp only at herr
            have hdne : unit.drop (unit.length / 2) ≠ [] := by
              intro hnil
              have := List.length_drop (unit.length / 2) unit
              rw [hnil] at this
              simp at this
              omega
            obtain ⟨e, he, hc⟩ := ih (unit.drop (unit.length / 2)).length
              (by rw [List.length_drop]; omega) (unit.drop (unit.length / 2)) d₁ m rfl
              hdne herr
            exact ⟨e, List.drop_subset _ _ he, hc⟩
      · rcases unit with _ | ⟨e, _ | ⟨e₂, t⟩⟩
        · exact absurd rfl hne
        · cases hc : cpu e with
          | ok reps₁ =>
            rw [safe_embed_oom_single_ok gpu cpu pp e d reps₁ hg hc] at herr
            exact absurd herr (by simp)
          | error m₁ =>
            rw [safe_embed_oom_single_err gpu cpu pp e d m₁ hg hc] at herr
            simp only at herr
            cases herr
            exact ⟨e, by simp, hc⟩
        · exfalso
          simp only [List.length_cons] at hlt
          omega

theorem safe_embed_gpu_bound (gpu : List Entry → OracleOut)
    (cpu : Entry → Except String (List Vec)) (pp : Bool) (n : Nat) :
    ∀ (unit : List Entry) (d : Store), unit.length = n → unit ≠ [] →
      (safe_embed gpu cpu pp unit d).gpuCalls ≤ 2 * unit.length - 1 := by
  induction n using Nat.strong_induction_on with
  | _ n ih =>
    intro unit d hlen hne
    have hpos : 0 < unit.length := List.length_pos.mpr hne
    cases hg : gpu unit with
    | ok reps =>
      rw [safe_embed_gpu_ok gpu cpu pp unit d reps hg]
      dsimp only
      omega
    | err m =>
      rw [safe_embed_gpu_err gpu cpu pp unit d m hg]
      dsimp only
      omega
    | oom =>
      by_cases hlt : 1 < unit.length
      · have hmid : (unit.take (unit.length / 2)).length = unit.length / 2 := by
          rw [List.length_take]; omega
        have htne : unit.take (unit.length / 2) ≠ [] := by
          intro hnil
          rw [hnil] at hmid
          simp at hmid
          omega
        have hdne : unit.drop (unit.length / 2) ≠ [] := by
          intro hnil
          have := List.length_drop (unit.length / 2) unit
          rw [hnil] at this
          simp at this
          omega
        rw [safe_embed_oom_split gpu cpu pp unit d hg hlt]
        cases h₁ : safe_embed gpu cpu pp (unit.take (unit.length / 2)) d with
        | mk d₁ r₁ g₁ c₁ =>
          have hb₁ : g₁ ≤ 2 * (unit.length / 2) - 1 := by
            have := ih (unit.take (unit.length / 2)).length (by rw [hmid]; omega)
              (unit.take (unit.length / 2)) d rfl htne
            rw [h₁, hmid] at this
            exact this
          cases r₁ with
          | error m =>
            dsimp only
            omega
          | ok u =>
            dsimp only
            have hb₂ : (safe_embed gpu cpu pp (unit.drop (unit.length / 2)) d₁).gpuCalls
                ≤ 2 * (unit.length - unit.length / 2) - 1 := by
              have := ih (unit.drop (unit.length / 2)).length
                (by rw [List.length_drop]; omega)
                (unit.drop (unit.length / 2)) d₁ rfl hdne
              rw [List.length_drop] at this
              exact this
            omega
      · rcases unit with _ | ⟨e, _ | ⟨e₂, t⟩⟩
        · exact absurd rfl hne
        · cases hc : cpu e with
          | ok reps₁ =>
            rw [safe_embed_oom_single_ok gpu cpu pp e d reps₁ hg hc]
            simp
          | error m =>
            rw [safe_embed_oom_single_err gpu cpu pp e d m hg hc]
            simp
        · exfalso
          simp only [List.length_cons] at hlt
          omega

/-- Bindings already in the dict survive a `safe_embed` call unchanged,
provided the submitted unit's ids are all absent from the dict. -/
theorem safe_embed_preserves (gpu : List Entry → OracleOut)
    (cpu : Entry → Except String (List Vec)) (pp : Bool) (unit : List Entry) (d : Store)
    (hfresh : ∀ e ∈ unit, storeGet d e.uid = none) :
    StoreSub d (safe_embed gpu cpu pp unit d).dict := by
  intro k v hv
  have hk : k ∉ unit.map Entry.uid := by
    intro hmem
    obtain ⟨e, he, rfl⟩ := List.mem_map.mp hmem
    rw [hfresh e he] at hv
    exact Option.noConfusion hv
  rw [safe_embed_storeGet_notmem gpu cpu pp unit.length unit d k rfl hk]
  exact hv

theorem StoreSub.rfl (s : Store) : StoreSub s s := fun _ _ h => h

theorem StoreSub.trans {a b c : Store} (h₁ : StoreSub a b) (h₂ : StoreSub b c) :
    StoreSub a c := fun k v hv => h₂ k v (h₁ k v hv)

/- ------------------------------------------------------------------ -/
/- The pipeline: successive saved snapshots form a chain.              -/
/- ------------------------------------------------------------------ -/

theorem embedLoop_chain (gpu : List Entry → OracleOut)
    (cpu : Entry → Except String (List Vec)) (pp : Bool)
    (mr ml mb se : Nat) (as : Bool) :
    ∀ (entries : List (String × String)) (batch : List Entry) (bIdx : Nat) (d : Store)
      (snaps : List Store) (g c : Nat),
      (batch.map Entry.uid ++ entries.map Prod.fst).Nodup →
      (∀ k ∈ batch.map Entry.uid ++ entries.map Prod.fst, storeGet d k = none) →
      List.Chain' StoreSub snaps →
      (∀ s ∈ snaps, StoreSub s d) →
      List.Chain' StoreSub
        (embedLoop gpu cpu pp mr ml mb se as batch bIdx d snaps g c entries).snaps := by
  intro entries
  induction entries with
  | nil =>
    intro batch bIdx d snaps g c _ _ hch _
    exact hch
  | cons p rest ih =>
    intro batch bIdx d snaps g c hnd hfresh hch hsub
    obtain ⟨pid, seq⟩ := p
    simp only [List.map_cons] at hnd hfresh
    simp only [embedLoop]
    split
    · -- the batch is flushed to safe_embed
      have hfreshb : ∀ x ∈ batch ++ [mkEntry pid seq], storeGet d x.uid = none := by
        intro x hx
        rcases List.mem_append.mp hx with hb | hb
        · exact hfresh x.uid (List.mem_append_left _ (List.mem_map.mpr ⟨x, hb, rfl⟩))
        · have hxe : x = mkEntry pid seq := by simpa using hb
          subst hxe
          exact hfresh pid (List.mem_append_right _ (List.mem_cons_self _ _))
      have hpid : pid ∉ rest.map Prod.fst :=
        (List.nodup_cons.mp (List.Nodup.of_append_right hnd)).1
      have hdisj := List.disjoint_of_nodup_append hnd
      split
      · -- safe_embed raised: the run aborts, snapshots unchanged
        exact hch
      · -- safe_embed returned normally
        next d₁ u g₁ c₁ heq =>
        have hsubd₁ : StoreSub d d₁ := by
          have h := safe_embed_preserves gpu cpu pp (batch ++ [mkEntry pid seq]) d hfreshb
          rw [heq] at h
          exact h
        have hfreshd₁ : ∀ k ∈ rest.map Prod.fst, storeGet d₁ k = none := by
          intro k hk
          have hknb : k ∉ (batch ++ [mkEntry pid seq]).map Entry.uid := by
            intro hmem
            rw [List.map_append] at hmem
            rcases List.mem_append.mp hmem with hm | hm
            · exact hdisj hm (List.mem_cons_of_mem _ hk)
            · have hkp : k = pid := by simpa [mkEntry] using hm
              exact hpid (hkp ▸ hk)
          have h := safe_embed_storeGet_notmem gpu cpu pp
            (batch ++ [mkEntry pid seq]).length (batch ++ [mkEntry pid seq]) d k rfl hknb
          rw [heq] at h
          rw [h]
          exact hfresh k (List.mem_append_right _ (List.mem_cons_of_mem _ hk))
        have hsub₁ : ∀ s ∈ snaps, StoreSub s d₁ := fun s hs => (hsub s hs).trans hsubd₁
        have hndr : (([] : List Entry).map Entry.uid ++ rest.map Prod.fst).Nodup := by
          simpa using (List.nodup_cons.mp (List.Nodup.of_append_right hnd)).2
        have hfreshr : ∀ k ∈ ([] : List Entry).map Entry.uid ++ rest.map Prod.fst,
            storeGet d₁ k = none := by
          simpa using hfreshd₁
        by_cases hsv : (bIdx + 1) % se = 0 ∨ rest = []
        · rw [if_pos hsv]
          refine ih [] (bIdx + 1) d₁ (snaps ++ [d₁]) _ _ hndr hfreshr ?_ ?_
          · refine List.chain'_append.mpr ⟨hch, List.chain'_singleton _, ?_⟩
            intro x hx y hy
            obtain ⟨hxe, hxl⟩ := List.mem_getLast?_eq_getLast hx
            have hyd : d₁ = y := by simpa using hy
            subst hyd
            exact hsub₁ x (hxl ▸ List.getLast_mem hxe)
          · intro s hs
            rcases List.mem_append.mp hs with h | h
            · exact (hsub₁ s h).trans (StoreSub.rfl d₁)
            · have hsd : s = d₁ := by simpa using h
              rw [hsd]
              exact StoreSub.rfl d₁
        · rw [if_neg hsv]
          exact ih [] (bIdx + 1) d₁ snaps _ _ hndr hfreshr hch hsub₁
    · -- no flush: the entry joins the open batch
      refine ih (batch ++ [mkEntry pid seq]) bIdx d snaps g c ?_ ?_ hch hsub
      · have hrew : (batch ++ [mkEntry pid seq]).map Entry.uid ++ rest.map Prod.fst
            = batch.map Entry.uid ++ (pid :: rest.map Prod.fst) := by
          simp [mkEntry]
        rw [hrew]
        exact hnd
      · intro k hk
        apply hfresh k
        have hrew : (batch ++ [mkEntry pid seq]).map Entry.uid ++ rest.map Prod.fst
            = batch.map Entry.uid ++ (pid :: rest.map Prod.fst) := by
          simp [mkEntry]
        rw [hrew] at hk
        exact hk

/- ------------------------------------------------------------------ -/
/- Mean pooling: componentwise characterization.                       -/
/- ------------------------------------------------------------------ -/

theorem getD_of_lt (l : List ℚ) (i : Nat) (h : i < l.length) :
    l.getD i 0 = l.get ⟨i, h⟩ := by
  rw [List.getD_eq_getElem?_getD, List.getElem?_eq_getElem h]
  rfl

theorem getD_vecAdd (a b : Vec) (H i : Nat) (hi : i < H)
    (ha : a.length = H) (hb : b.length = H) :
    (vecAdd a b).getD i 0 = a.getD i 0 + b.getD i 0 := by
  have hl : (vecAdd a b).length = H := by
    simp [vecAdd, List.length_zipWith, ha, hb]
  rw [getD_of_lt _ i (by omega), getD_of_lt a i (by omega), getD_of_lt b i (by omega)]
  simp [vecAdd]

theorem vecSum_length (H : Nat) :
    ∀ (vs : List Vec), vs ≠ [] → (∀ v ∈ vs, v.length = H) → (vecSum vs).length = H := by
  intro vs
  induction vs with
  | nil => intro h; exact absurd rfl h
  | cons v t ih =>
    intro _ hH
    cases t with
    | nil => simpa using hH v (by simp)
    | cons w u =>
      have hsum := ih (by simp) (fun x hx => hH x (List.mem_cons_of_mem _ hx))
      have hv : v.length = H := hH v (by simp)
      show (vecAdd v (vecSum (w :: u))).length = H
      simp [vecAdd, List.length_zipWith, hsum, hv]

theorem vecSum_getD (H i : Nat) (hi : i < H) :
    ∀ (vs : List Vec), vs ≠ [] → (∀ v ∈ vs, v.length = H) →
      (vecSum vs).getD i 0 = (vs.map (fun v => v.getD i 0)).sum := by
  intro vs
  induction vs with
  | nil => intro h; exact absurd rfl h
  | cons v t ih =>
    intro _ hH
    cases t with
    | nil => simp [vecSum]
    | cons w u =>
      have hl : (vecSum (w :: u)).length = H :=
        vecSum_length H _ (by simp) (fun x hx => hH x (List.mem_cons_of_mem _ hx))
      have hv : v.length = H := hH v (by simp)
      have hrec := ih (by simp) (fun x hx => hH x (List.mem_cons_of_mem _ hx))
      show (vecAdd v (vecSum (w :: u))).getD i 0 = _
      rw [getD_vecAdd v _ H i hi hv hl, hrec]
      simp

theorem meanVecs_getD (vs : List Vec) (H i : Nat)
    (hH : ∀ v ∈ vs, v.length = H) (hne : vs ≠ []) (hi : i < H) :
    (meanVecs vs).getD i 0 = (vs.map (fun v => v.getD i 0)).sum / (vs.length : ℚ) := by
  have hl : (vecSum vs).length = H := vecSum_length H vs hne hH
  have hmap : (meanVecs vs).getD i 0 = (vecSum vs).getD i 0 / (vs.length : ℚ) := by
    unfold meanVecs
    rw [getD_of_lt _ i (by simpa [hl]), getD_of_lt _ i (by omega)]
    simp
  rw [hmap, vecSum_getD H i hi vs hne hH]

/- ------------------------------------------------------------------ -/
/- Flush: helper facts.                                                -/
/- ------------------------------------------------------------------ -/

theorem flushLines_fst (d : Store) : (flushLines d).map Prod.fst = sortedIds d := by
  simp only [flushLines, List.map_map]
  exact List.map_id _

theorem getD_store (l : List Store) (i : Nat) (h : i < l.length) :
    l.getD i [] = l.get ⟨i, h⟩ := by
  rw [List.getD_eq_getElem?_getD, List.getElem?_eq_getElem h]
  rfl

/- ------------------------------------------------------------------ -/
/- Claim theorems.                                                     -/
/- ------------------------------------------------------------------ -/

/-- C1: for every work unit resolved by `safe_embed` under an oracle that
either succeeds (with one output per member) or signals resource exhaustion,
a normal return leaves the dict with exactly one new entry per member of the
unit, in order — no member lost, none duplicated — including through
recursive splitting and the singleton CPU fallback; and an exception can
only be a failure of the secondary (CPU) path on some member. -/
theorem safe_embed_exactly_once (gpu : List Entry → OracleOut)
    (cpu : Entry → Except String (List Vec)) (pp : Bool) (unit : List Entry) (d : Store)
    (hnoerr : ∀ u m, gpu u ≠ OracleOut.err m)
    (hwf : ∀ u reps, gpu u = OracleOut.ok reps → reps.length = u.length)
    (hnd : (unit.map Entry.uid).Nodup)
    (hfresh : ∀ e ∈ unit, storeGet d e.uid = none)
    (hne : unit ≠ []) :
    ((safe_embed gpu cpu pp unit d).res = Except.ok () →
      (safe_embed gpu cpu pp unit d).dict.map Prod.fst
        = d.map Prod.fst ++ unit.map Entry.uid) ∧
    (∀ m, (safe_embed gpu cpu pp unit d).res = Except.error m →
      ∃ e ∈ unit, cpu e = Except.error m) :=
  ⟨fun hok => safe_embed_keys gpu cpu pp unit.length hwf unit d rfl hnd hfresh hok,
   fun m herr => safe_embed_error_src gpu cpu pp unit.length hnoerr unit d m rfl hne herr⟩

/-- Witness for C1: a three-member unit whose full batch exhausts the stub
oracle, is recursively split and fully resolved, every member receiving
exactly one entry. -/
theorem safe_embed_exactly_once_witness :
    (safe_embed gpuT cpuOk true unitEx []).res = Except.ok () ∧
    (safe_embed gpuT cpuOk true unitEx []).dict.map Prod.fst
      = ([] : Store).map Prod.fst ++ unitEx.map Entry.uid :=
  ⟨by decide,
   (safe_embed_exactly_once gpuT cpuOk true unitEx []
      (fun u m => by
        unfold gpuT
        split
        · exact fun h => OracleOut.noConfusion h
        · exact fun h => OracleOut.noConfusion h)
      (fun u reps h => by
        unfold gpuT at h
        split at h
        · exact OracleOut.noConfusion h
        · cases h
          simp)
      (by decide) (by decide) (by decide)).1 (by decide)⟩

/-- C2 counterexample: on five sequences of lengths 50, 40, 10, 10, 5 with
`max_batch=5`, `max_residues=60` (and the default `max_seq_len=1000`), the
code packs `[50,40],[10,10,5]` — 50 alone is strictly below the residue
threshold, so no flush occurs before the second sequence joins — not the
claimed `[50],[40,10,10],[5]`. -/
theorem batch_packer_example_cx :
    (packBatches 60 1000 5 exPack).map (fun b => b.map Entry.len) = [[50, 40], [10, 10, 5]] ∧
    ([[50, 40], [10, 10, 5]] : List (List Nat)) ≠ [[50], [40, 10, 10], [5]] := by
  constructor
  · decide
  · decide

/-- C2 amended: on the example input the packer produces `[50,40],[10,10,5]`;
and in general the loop closes the open unit exactly when the spec's
condition holds of the unit after adding the current sequence: item count
reaches `max_batch`, cumulative residues reach `max_residues`, the just-added
sequence individually exceeds `max_seq_len`, or the input is exhausted. -/
theorem batch_packer_spec :
    (packBatches 60 1000 5 exPack).map (fun b => b.map Entry.len) = [[50, 40], [10, 10, 5]] ∧
    ∀ (mr ml mb : Nat) (batch : List Entry) (pid seq : String)
      (rest : List (String × String)),
      packGo mr ml mb batch ((pid, seq) :: rest) =
        if specClosesB mb mr ml (batch ++ [mkEntry pid seq]) (mkEntry pid seq) rest.isEmpty
        then (batch ++ [mkEntry pid seq]) :: packGo mr ml mb [] rest
        else packGo mr ml mb (batch ++ [mkEntry pid seq]) rest := by
  constructor
  · decide
  · intro mr ml mb batch pid seq rest
    have hcond : (specClosesB mb mr ml (batch ++ [mkEntry pid seq]) (mkEntry pid seq)
        rest.isEmpty = true)
        ↔ (mb ≤ (batch ++ [mkEntry pid seq]).length
            ∨ mr ≤ sumLens (batch ++ [mkEntry pid seq]) ∨ rest = []
            ∨ ml < (mkEntry pid seq).len) := by
      simp [specClosesB, List.isEmpty_iff]
      tauto
    simp only [packGo]
    by_cases h : mb ≤ (batch ++ [mkEntry pid seq]).length
        ∨ mr ≤ sumLens (batch ++ [mkEntry pid seq]) ∨ rest = []
        ∨ ml < (mkEntry pid seq).len
    · rw [if_pos h, if_pos (hcond.mpr h)]
    · rw [if_neg h, if_neg (fun hh => h (hcond.mp hh))]

/-- C3 (code bug): `embed_fasta` accepts `auto_shrink` but never reads it.
With `auto_shrink = false`, a batch of two length-3 sequences whose joint
submission exhausts the stub oracle is still recovered by recursive
splitting (3 oracle calls) and the run completes normally, embedding both
ids — identically to `auto_shrink = true` — where the claim (and the
source's own option documentation) requires exhaustion to be immediately
fatal when recovery is disabled. -/
theorem auto_shrink_flag_ignored :
    (embed_fasta gpuT4 cpuOk false 5 1000 256 1 false exC3).res = Except.ok () ∧
    (embed_fasta gpuT4 cpuOk false 5 1000 256 1 false exC3).dict.map Prod.fst = ["a", "b"] ∧
    (embed_fasta gpuT4 cpuOk false 5 1000 256 1 false exC3).gpuCalls = 3 ∧
    embed_fasta gpuT4 cpuOk false 5 1000 256 1 false exC3
      = embed_fasta gpuT4 cpuOk false 5 1000 256 1 true exC3 := by
  refine ⟨?_, ?_, ?_, ?_⟩
  · decide
  · decide
  · decide
  · decide

/-- C4: on any nonempty work unit, `safe_embed` invokes the primary (GPU)
oracle at most `2*count - 1` times, whatever the oracle and fallback do. -/
theorem oracle_call_bound (gpu : List Entry → OracleOut)
    (cpu : Entry → Except String (List Vec)) (pp : Bool) (unit : List Entry) (d : Store)
    (hne : unit ≠ []) :
    (safe_embed gpu cpu pp unit d).gpuCalls ≤ 2 * unit.length - 1 :=
  safe_embed_gpu_bound gpu cpu pp unit.length unit d rfl hne

/-- Witness for C4: with an always-exhausting oracle on a three-member unit
the bound is attained with equality (5 = 2*3 - 1). -/
theorem oracle_call_bound_witness :
    unitEx ≠ [] ∧ (safe_embed gpuAllOom cpuOk false unitEx []).gpuCalls ≤ 2 * unitEx.length - 1 :=
  ⟨by decide, oracle_call_bound gpuAllOom cpuOk false unitEx [] (by decide)⟩

/-- C5 counterexample: assigning an id that is already present in the store
silently replaces the stored value (Python dict assignment, modelled by
`dictInsert`); no error of any kind is raised and the old value is gone. -/
theorem put_overwrites_cx :
    dictInsert [("a", EmbVal.pooled [(1 : ℚ)])] "a" (EmbVal.pooled [(2 : ℚ)])
      = [("a", EmbVal.pooled [(2 : ℚ)])] ∧
    storeGet (dictInsert [("a", EmbVal.pooled [(1 : ℚ)])] "a" (EmbVal.pooled [(2 : ℚ)])) "a"
      ≠ some (EmbVal.pooled [(1 : ℚ)]) := by
  constructor
  · decide
  · decide

/-- C5 amended: `put` on an id that is already present silently overwrites
it — last write wins — rather than aborting; the store operation is total
and performs no presence check. -/
theorem put_last_write_wins (d : Store) (k : String) (v₀ v : EmbVal)
    (h : storeGet d k = some v₀) :
    storeGet (dictInsert d k v) k = some v :=
  storeGet_dictInsert_self d k v

/-- Witness for the amended C5. -/
theorem put_last_write_wins_witness :
    storeGet [("a", EmbVal.pooled [(1 : ℚ)])] "a" = some (EmbVal.pooled [(1 : ℚ)]) ∧
    storeGet (dictInsert [("a", EmbVal.pooled [(1 : ℚ)])] "a" (EmbVal.pooled [(2 : ℚ)])) "a"
      = some (EmbVal.pooled [(2 : ℚ)]) :=
  ⟨by decide, put_last_write_wins [("a", EmbVal.pooled [(1 : ℚ)])] "a"
    (EmbVal.pooled [(1 : ℚ)]) (EmbVal.pooled [(2 : ℚ)]) (by decide)⟩

/-- C6 counterexample: when the CPU fallback for singleton `seq1` fails, the
engine propagates the secondary path's own error message unchanged — the
raised error does not name the offending identifier (no wrapping error is
constructed), though the fallback is indeed attempted exactly once. -/
theorem fallback_error_unnamed_cx :
    (safe_embed gpuAllOom cpuFail false [⟨"seq1", "A", 1⟩] []).res
      = Except.error "CUDA out of memory" ∧
    mentions "seq1" "CUDA out of memory" = false ∧
    (safe_embed gpuAllOom cpuFail false [⟨"seq1", "A", 1⟩] []).cpuCalls = 1 := by
  refine ⟨?_, ?_, ?_⟩
  · decide
  · decide
  · decide

/-- C6 amended: a singleton unit whose oracle call exhausts is routed to the
secondary compute path exactly once (one GPU attempt, one CPU attempt, no
further retry); if the secondary path fails, its error propagates fatally
as-is, with the dict untouched. -/
theorem singleton_fallback (gpu : List Entry → OracleOut)
    (cpu : Entry → Except String (List Vec)) (pp : Bool) (e : Entry) (d : Store)
    (hg : gpu [e] = OracleOut.oom) :
    (safe_embed gpu cpu pp [e] d).cpuCalls = 1 ∧
    (safe_embed gpu cpu pp [e] d).gpuCalls = 1 ∧
    ∀ m, cpu e = Except.error m →
      (safe_embed gpu cpu pp [e] d).res = Except.error m ∧
      (safe_embed gpu cpu pp [e] d).dict = d := by
  cases hc : cpu e with
  | ok reps₁ =>
    rw [safe_embed_oom_single_ok gpu cpu pp e d reps₁ hg hc]
    refine ⟨rfl, rfl, ?_⟩
    intro m hm
    exact Except.noConfusion hm
  | error m₁ =>
    rw [safe_embed_oom_single_err gpu cpu pp e d m₁ hg hc]
    refine ⟨rfl, rfl, ?_⟩
    intro m hm
    cases hm
    exact ⟨rfl, rfl⟩

/-- Witness for the amended C6. -/
theorem singleton_fallback_witness :
    gpuAllOom [⟨"seq1", "A", 1⟩] = OracleOut.oom ∧
    (safe_embed gpuAllOom cpuFail false [⟨"seq1", "A", 1⟩] []).cpuCalls = 1 :=
  ⟨rfl, (singleton_fallback gpuAllOom cpuFail false ⟨"seq1", "A", 1⟩ [] rfl).1⟩

/-- C7 counterexample: flushing an empty store leaves the destination's
prior content in place (the function returns before opening the file),
whereas a complete rewrite of the empty snapshot would leave it empty. -/
theorem flush_empty_keeps_prior_cx :
    flushFile [] "old content" = "old content" ∧
    serializeStore ([] : Store) = "" ∧
    ("old content" : String) ≠ "" := by
  refine ⟨rfl, rfl, ?_⟩
  decide

/-- C7 amended: every flush of a nonempty store writes the serialization of
the entire current store — one tab-separated line per stored id, lines in
ascending id order — and the result is independent of whatever was
previously at the destination (a whole-snapshot rewrite, not an append). -/
theorem flush_snapshot (d : Store) (prior prior₁ : String) (h : d ≠ []) :
    flushFile d prior = serializeStore d ∧
    flushFile d prior = flushFile d prior₁ ∧
    List.Sorted (fun a b => a ≤ b) ((flushLines d).map Prod.fst) ∧
    (∀ uid, uid ∈ d.map Prod.fst ↔ uid ∈ (flushLines d).map Prod.fst) := by
  have h₁ : flushFile d prior = serializeStore d := by simp [flushFile, h]
  have h₂ : flushFile d prior₁ = serializeStore d := by simp [flushFile, h]
  refine ⟨h₁, h₁.trans h₂.symm, ?_, ?_⟩
  · rw [flushLines_fst]
    exact List.sorted_insertionSort _ _
  · intro uid
    rw [flushLines_fst]
    exact (List.Perm.mem_iff (List.perm_insertionSort _ _)).symm

/-- Witness for the amended C7. -/
theorem flush_snapshot_witness :
    dEx ≠ [] ∧ flushFile dEx "previous content" = serializeStore dEx :=
  ⟨by decide, (flush_snapshot dEx "previous content" "other" (by decide)).1⟩

/-- C8: per-entity (pooled) mode output is exactly the pooled mean of the
per-position output for the same sequence, and that mean is the elementwise
arithmetic mean: each component is the sum of that component over the
truncated positions divided by the number of positions. -/
theorem pooling_correct (reps : List Vec) (len H i : Nat)
    (hH : ∀ v ∈ reps.take len, v.length = H)
    (hne : reps.take len ≠ []) (hi : i < H) :
    processMember true reps len
      = EmbVal.pooled (meanVecs (EmbVal.positions (processMember false reps len))) ∧
    (meanVecs (EmbVal.positions (processMember false reps len))).getD i 0
      = ((EmbVal.positions (processMember false reps len)).map (fun v => v.getD i 0)).sum
        / ((EmbVal.positions (processMember false reps len)).length : ℚ) := by
  have hpos : EmbVal.positions (processMember false reps len) = reps.take len := by
    simp [processMember, EmbVal.positions]
  constructor
  · simp [processMember, EmbVal.positions]
  · rw [hpos]
    exact meanVecs_getD (reps.take len) H i hH hne hi

/-- Witness for C8: two positions of dimension 2; the first pooled component
is (1 + 3) / 2 = 2. -/
theorem pooling_correct_witness :
    processMember true [[1, 3], [3, 5]] 2
      = EmbVal.pooled (meanVecs (EmbVal.positions (processMember false [[1, 3], [3, 5]] 2))) ∧
    (meanVecs (EmbVal.positions (processMember false [[1, 3], [3, 5]] 2))).getD 0 0
      = ((EmbVal.positions (processMember false [[1, 3], [3, 5]] 2)).map
          (fun v => v.getD 0 0)).sum
        / ((EmbVal.positions (processMember false [[1, 3], [3, 5]] 2)).length : ℚ) :=
  pooling_correct [[1, 3], [3, 5]] 2 2 0 (by decide) (by decide) (by decide)

/-- C9: over a run of the pipeline on distinct ids, the saved snapshots grow
monotonically: every binding present in snapshot k is present, with the same
value, in snapshot k+1 — so id sets are nested and no stored value is ever
replaced. -/
theorem store_monotone (gpu : List Entry → OracleOut)
    (cpu : Entry → Except String (List Vec)) (pp : Bool)
    (mr ml mb se : Nat) (as : Bool) (entries : List (String × String))
    (hnd : (entries.map Prod.fst).Nodup)
    (k : Nat) (uid : String) (v : EmbVal)
    (hk : k + 1 < (embed_fasta gpu cpu pp mr ml mb se as entries).snaps.length)
    (hv : storeGet ((embed_fasta gpu cpu pp mr ml mb se as entries).snaps.getD k []) uid
      = some v) :
    storeGet ((embed_fasta gpu cpu pp mr ml mb se as entries).snaps.getD (k + 1) []) uid
      = some v := by
  have hch : List.Chain' StoreSub (embed_fasta gpu cpu pp mr ml mb se as entries).snaps :=
    embedLoop_chain gpu cpu pp mr ml mb se as entries [] 0 [] [] 0 0
      (by simpa using hnd) (fun kk _ => rfl) List.chain'_nil (by simp)
  have hstep := List.chain'_iff_get.mp hch k (by omega)
  rw [getD_store _ k (by omega)] at hv
  rw [getD_store _ (k + 1) hk]
  exact hstep uid v hv

/-- Witness for C9: a run saving two snapshots; the binding of id "a" from
the first snapshot persists unchanged in the second. -/
theorem store_monotone_witness :
    storeGet ((embed_fasta gpuOkStub cpuOk false 1000 1000 1 1 true exPairs9).snaps.getD 1 [])
      "a" = some (EmbVal.perPos [[0], [0]]) :=
  store_monotone gpuOkStub cpuOk false 1000 1000 1 1 true exPairs9 (by decide) 0 "a"
    (EmbVal.perPos [[0], [0]]) (by decide) (by decide)

/-- C10: flushing while the store is empty returns before touching the
destination: whatever content was there is preserved verbatim. -/
theorem flush_empty_noop (prior : String) : flushFile [] prior = prior := by
  simp [flushFile]

end ProtT5
